import Mathlib

/-!
Verification of the esphome core helper library (esphome/core/helpers.h):
byte-order codec, hex codec, tiered allocator and fast PRNG.

Machine integers are modelled as Nat with explicit bounds; the C++
unsigned integer types uint8_t, uint16_t, uint32_t, uint64_t are the
widths 1, 2, 4, 8 bytes. Strings are lists of ASCII codes (Nat).
-/

namespace Esphome

/-- Byte widths of the unsigned integer types the helper templates are
instantiated at: uint8_t, uint16_t, uint32_t, uint64_t. -/
inductive Width where
  | w1
  | w2
  | w4
  | w8
deriving DecidableEq

/-- Value of sizeof(T) for each width. -/
def Width.size : Width → Nat
  | .w1 => 1
  | .w2 => 2
  | .w4 => 4
  | .w8 => 8

/-- Semantics of __builtin_bswap16: the 16-bit value with its two bytes
reversed (helpers.h line 295). -/
def bswap16 (n : Nat) : Nat :=
  n % 256 * 256 + n / 256 % 256

/-- Semantics of __builtin_bswap32: the 32-bit value with its four bytes
reversed (helpers.h line 296). -/
def bswap32 (n : Nat) : Nat :=
  n % 256 * 2 ^ 24 + n / 2 ^ 8 % 256 * 2 ^ 16 + n / 2 ^ 16 % 256 * 2 ^ 8 + n / 2 ^ 24 % 256

/-- Semantics of __builtin_bswap64: the 64-bit value with its eight bytes
reversed (helpers.h line 297). -/
def bswap64 (n : Nat) : Nat :=
  n % 256 * 2 ^ 56 + n / 2 ^ 8 % 256 * 2 ^ 48 + n / 2 ^ 16 % 256 * 2 ^ 40 +
    n / 2 ^ 24 % 256 * 2 ^ 32 + n / 2 ^ 32 % 256 * 2 ^ 24 + n / 2 ^ 40 % 256 * 2 ^ 16 +
    n / 2 ^ 48 % 256 * 2 ^ 8 + n / 2 ^ 56 % 256

/-- The byteswap overload set of helpers.h lines 294-297: identity at width 1,
byte reversal at widths 2, 4, 8. -/
def byteswap (W : Width) (n : Nat) : Nat :=
  match W with
  | .w1 => n
  | .w2 => bswap16 n
  | .w4 => bswap32 n
  | .w8 => bswap64 n

/-- The convert_big_endian template of helpers.h lines 357-363: byteswap on a
little-endian host, identity on a big-endian host. The host byte order is the
boolean argument little. -/
def convert_big_endian (little : Bool) (W : Width) (n : Nat) : Nat :=
  if little then byteswap W n else n

/-- The encode_uint16 function of helpers.h lines 305-307. -/
def encode_uint16 (msb lsb : Nat) : Nat :=
  (msb <<< 8) ||| lsb

/-- The encode_uint32 function of helpers.h lines 309-312. -/
def encode_uint32 (byte1 byte2 byte3 byte4 : Nat) : Nat :=
  (byte1 <<< 24) ||| (byte2 <<< 16) ||| (byte3 <<< 8) ||| byte4

/-- The encode_value template of helpers.h lines 315-322: fold the bytes from
most to least significant into a value of type T; the shift wraps modulo
2 ^ (8 * sizeof T) as the C++ assignment to T does. -/
def encode_value (W : Width) (bytes : List Nat) : Nat :=
  bytes.foldl (fun val b => ((val <<< 8) % 2 ^ (8 * W.size)) ||| b) 0

/-- Loop of the decode_value template of helpers.h lines 329-337: for i from
sizeof(T) down to 1, store val & 0xFF at position i - 1 and shift val right
by 8. -/
def decode_loop : Nat → Nat → List Nat → List Nat
  | 0, _, acc => acc
  | i + 1, val, acc => decode_loop i (val >>> 8) ((val &&& 255) :: acc)

/-- The decode_value template of helpers.h lines 329-337: the big-endian byte
array of a value of type T. -/
def decode_value (W : Width) (val : Nat) : List Nat :=
  decode_loop W.size val []

/-- Mathematical big-endian value of a byte list: byte 0 is most significant. -/
def ofBytesBE (bytes : List Nat) : Nat :=
  bytes.foldl (fun val b => val * 256 + b) 0

/-- Value of an integer whose in-memory bytes (offset 0 first) are the given
list, on a host of the given endianness: on a little-endian host offset 0 is
least significant, on a big-endian host it is most significant. -/
def bytes_to_value (little : Bool) (bytes : List Nat) : Nat :=
  if little then ofBytesBE bytes.reverse else ofBytesBE bytes

/-- The 8-bit reverse_bits function of helpers.h lines 340-345. -/
def reverse_bits_8 (x : Nat) : Nat :=
  let x1 := ((x &&& 0xAA) >>> 1) ||| ((x &&& 0x55) <<< 1)
  let x2 := ((x1 &&& 0xCC) >>> 2) ||| ((x1 &&& 0x33) <<< 2)
  ((x2 &&& 0xF0) >>> 4) ||| ((x2 &&& 0x0F) <<< 4)

/-- The 16-bit reverse_bits function of helpers.h lines 347-349. -/
def reverse_bits_16 (x : Nat) : Nat :=
  (reverse_bits_8 (x &&& 0xFF) <<< 8) ||| reverse_bits_8 ((x >>> 8) &&& 0xFF)

/-- The 32-bit reverse_bits function of helpers.h lines 351-354. -/
def reverse_bits_32 (x : Nat) : Nat :=
  (reverse_bits_16 (x &&& 0xFFFF) <<< 16) ||| reverse_bits_16 ((x >>> 16) &&& 0xFFFF)

/-- Modelled from the spec: value of a single hex digit character (given as an
ASCII code). Per spec section 6 the digits are 0-9 and lowercase a-f; uppercase
acceptance is optional there and is included. Any other character is not a hex
digit. -/
def hexVal (c : Nat) : Option Nat :=
  if 48 ≤ c ∧ c ≤ 57 then some (c - 48)
  else if 97 ≤ c ∧ c ≤ 102 then some (c - 97 + 10)
  else if 65 ≤ c ∧ c ≤ 70 then some (c - 65 + 10)
  else none

/-- Byte values of a hex character list taken two digits per byte; characters
that are not hex digits count as 0 (callers only use this on all-hex input). -/
def bytesOfHex : List Nat → List Nat
  | c1 :: c2 :: rest => ((hexVal c1).getD 0 * 16 + (hexVal c2).getD 0) :: bytesOfHex rest
  | _ => []

/-- Modelled from the spec: the buffer-form parse_hex declared at helpers.h
line 450, whose body is not part of the given sources. Per spec section 4.2 it
examines chars = min(len, 2*count) characters; if the input is shorter than
2*count characters it is treated as if left-padded with ASCII 48 (the zero
digit), the parsed bytes occupy the tail of the buffer and un-covered leading
bytes keep their prior value; the returned count of consumed characters is
chars. Per section 7 invalid input is signalled by a consumed count lower than
requested, and the strict and typed wrappers built on it (helpers.h lines
452-488) report failure exactly when that count is 0 or short, so a non-hex
character among the examined characters makes the parse fail with 0 consumed
and the buffer unchanged. -/
def parse_hex_buf (str : List Nat) (len : Nat) (data : List Nat) (count : Nat) :
    List Nat × Nat :=
  let chars := min len (2 * count)
  let text := str.take chars
  if text.all fun c => (hexVal c).isSome then
    let padded := List.replicate (2 * count - chars) 48 ++ text
    let parsed := bytesOfHex padded
    let uncovered := count - (chars + 1) / 2
    (data.take uncovered ++ parsed.drop uncovered, chars)
  else
    (data, 0)

/-- The strict bool form of parse_hex, helpers.h lines 452-458: parse with the
full string length and require exactly 2*count consumed characters. The first
component is the returned bool, the second the output buffer after the call. -/
def parse_hex_strict (str : List Nat) (data : List Nat) (count : Nat) : Bool × List Nat :=
  let r := parse_hex_buf str str.length data count
  (r.2 == 2 * count, r.1)

/-- The typed parse_hex overload of helpers.h lines 474-480: reject input
longer than 2*sizeof(T) characters; parse into the bytes of a zero value of T
in host memory order; reject a parse that consumed 0 characters; otherwise
return the parsed value converted through convert_big_endian on a host of the
given endianness. -/
def parse_hex_typed (little : Bool) (W : Width) (str : List Nat) (len : Nat) :
    Option Nat :=
  if 2 * W.size < len then none
  else
    let r := parse_hex_buf str len (List.replicate W.size 0) W.size
    if r.2 = 0 then none
    else some (convert_big_endian little W (bytes_to_value little r.1))

/-- Allocation outcomes of ExternalRAMAllocator::allocate, helpers.h lines
544-555: a returned pointer, a returned nullptr, or a call to abort. -/
inductive AllocResult where
  | ok (p : Nat)
  | fail
  | aborted
deriving DecidableEq

/-- Flag ExternalRAMAllocator::Flags::REFUSE_INTERNAL, helpers.h line 536. -/
def REFUSE_INTERNAL : Nat := 1

/-- Flag ExternalRAMAllocator::Flags::ALLOW_FAILURE, helpers.h line 537. -/
def ALLOW_FAILURE : Nat := 2

/-- The body of ExternalRAMAllocator::allocate, helpers.h lines 544-555. The
platform calls are abstracted by oracles: extPool is the result of
heap_caps_malloc (consulted only when the target is an ESP32, the only case in
which the preferred external-RAM pool exists), heapPool the result of malloc;
some p is a returned pointer, none is nullptr. -/
def allocate (esp32 : Bool) (extPool heapPool : Option Nat) (flags : Nat) : AllocResult :=
  let ptr : Option Nat := if esp32 then extPool else none
  let ptr : Option Nat :=
    if ptr = none ∧ flags &&& REFUSE_INTERNAL = 0 then heapPool else ptr
  match ptr with
  | some p => AllocResult.ok p
  | none => if flags &&& ALLOW_FAILURE = 0 then AllocResult.aborted else AllocResult.fail

/-- Plain primary-heap allocation with the AllowFailure policy, as the words of
spec section 4.4 describe the reduced behavior on platforms lacking the
secondary pool: try the heap; on failure return the failure indicator when
allowFailure is set and terminate otherwise. -/
def heap_allocate (heapPool : Option Nat) (allowFailure : Bool) : AllocResult :=
  match heapPool with
  | some p => AllocResult.ok p
  | none => if allowFailure then AllocResult.fail else AllocResult.aborted

/-- Widths a fast PRNG draw can be requested at (fast_random_32 /
fast_random_16 / fast_random_8, helpers.h lines 96-98). -/
inductive Draw where
  | d32
  | d16
  | d8
deriving DecidableEq

/-- Operations on the fast PRNG state: fast_random_set_seed and the three
draws, helpers.h lines 95-98. -/
inductive PrngOp where
  | reseed (seed : Nat)
  | draw (d : Draw)

/-- Modelled from the spec: a single draw of the fast PRNG, whose
implementation is not part of the given sources. Per spec section 4.5 the
state is one 32-bit word; a draw advances it by a fixed deterministic
transition and derives the output of the requested width from the new state,
the narrower widths deriving (mixing/truncating) from the same 32-bit advance.
The concrete transition and mixing functions are not fixed by the spec, so
they are parameters; the result is the pair of new state and output. -/
def prngDraw (step mix16 mix8 : Nat → Nat) : Draw → Nat → Nat × Nat
  | .d32, s => let s2 := step s % 2 ^ 32; (s2, s2)
  | .d16, s => let s2 := step s % 2 ^ 32; (s2, mix16 s2 % 2 ^ 16)
  | .d8, s => let s2 := step s % 2 ^ 32; (s2, mix8 s2 % 2 ^ 8)

/-- Modelled from the spec: run a list of fast PRNG operations from a starting
state; fast_random_set_seed replaces the state unconditionally (spec section
4.5). Returns the list of drawn outputs and the final state. -/
def prngRun (step mix16 mix8 : Nat → Nat) : List PrngOp → Nat → List Nat × Nat
  | [], s => ([], s)
  | .reseed seed :: ops, _ => prngRun step mix16 mix8 ops (seed % 2 ^ 32)
  | .draw d :: ops, s =>
    let r := prngDraw step mix16 mix8 d s
    let rest := prngRun step mix16 mix8 ops r.1
    (r.2 :: rest.1, rest.2)

/-! Helper lemmas about bit operations on Nat. -/

theorem lor_eq_add_of_lt {a b n : Nat} (ha : ∃ c, a = 2 ^ n * c) (hb : b < 2 ^ n) :
    a ||| b = a + b := by
  obtain ⟨c, rfl⟩ := ha
  exact (Nat.mul_add_lt_is_or hb c).symm

theorem and_255_eq_mod (x : Nat) : x &&& 255 = x % 256 := by
  have h := Nat.and_pow_two_sub_one_eq_mod x 8
  norm_num at h
  exact h

theorem and_65535_eq_mod (x : Nat) : x &&& 65535 = x % 65536 := by
  have h := Nat.and_pow_two_sub_one_eq_mod x 16
  norm_num at h
  exact h

theorem shiftRight_8_eq_div (x : Nat) : x >>> 8 = x / 256 := by
  have h := Nat.shiftRight_eq_div_pow x 8
  norm_num at h
  exact h

theorem shiftRight_16_eq_div (x : Nat) : x >>> 16 = x / 65536 := by
  have h := Nat.shiftRight_eq_div_pow x 16
  norm_num at h
  exact h

/-- C8: encode_uint16 and encode_uint32 are pure total functions combining
their byte arguments from most to least significant: for bytes,
encode_uint16 msb lsb is msb * 2 ^ 8 + lsb (hence equal to (msb <<< 8) ||| lsb
by definition) and bounded by 2 ^ 16, encode_uint32 combines its four bytes
with weights 2 ^ 24, 2 ^ 16, 2 ^ 8, 1 and is bounded by 2 ^ 32; in particular
encode_uint16 0x12 0x34 = 0x1234 and
encode_uint32 0x01 0x02 0x03 0x04 = 0x01020304. -/
theorem encode_uint_spec :
    (∀ msb lsb : Nat, msb < 256 → lsb < 256 →
      encode_uint16 msb lsb = msb * 2 ^ 8 + lsb ∧ encode_uint16 msb lsb < 2 ^ 16) ∧
    (∀ b1 b2 b3 b4 : Nat, b1 < 256 → b2 < 256 → b3 < 256 → b4 < 256 →
      encode_uint32 b1 b2 b3 b4 = b1 * 2 ^ 24 + b2 * 2 ^ 16 + b3 * 2 ^ 8 + b4 ∧
        encode_uint32 b1 b2 b3 b4 < 2 ^ 32) ∧
    encode_uint16 0x12 0x34 = 0x1234 ∧
    encode_uint32 0x01 0x02 0x03 0x04 = 0x01020304 := by
  refine ⟨?_, ?_, by decide, by decide⟩
  · intro msb lsb hm hl
    have h : encode_uint16 msb lsb = msb * 2 ^ 8 + lsb := by
      unfold encode_uint16
      rw [Nat.shiftLeft_eq]
      exact lor_eq_add_of_lt (n := 8) ⟨msb, by ring⟩ (by omega)
    exact ⟨h, by rw [h]; omega⟩
  · intro b1 b2 b3 b4 h1 h2 h3 h4
    have e1 : b1 <<< 24 ||| b2 <<< 16 = b1 * 2 ^ 24 + b2 * 2 ^ 16 := by
      rw [Nat.shiftLeft_eq, Nat.shiftLeft_eq]
      exact lor_eq_add_of_lt (n := 24) ⟨b1, by ring⟩ (by omega)
    have e2 : (b1 * 2 ^ 24 + b2 * 2 ^ 16) ||| b3 <<< 8 =
        b1 * 2 ^ 24 + b2 * 2 ^ 16 + b3 * 2 ^ 8 := by
      rw [Nat.shiftLeft_eq]
      exact lor_eq_add_of_lt (n := 16) ⟨b1 * 2 ^ 8 + b2, by ring⟩ (by omega)
    have e3 : (b1 * 2 ^ 24 + b2 * 2 ^ 16 + b3 * 2 ^ 8) ||| b4 =
        b1 * 2 ^ 24 + b2 * 2 ^ 16 + b3 * 2 ^ 8 + b4 :=
      lor_eq_add_of_lt (n := 8) ⟨b1 * 2 ^ 16 + b2 * 2 ^ 8 + b3, by ring⟩ (by omega)
    have h : encode_uint32 b1 b2 b3 b4 = b1 * 2 ^ 24 + b2 * 2 ^ 16 + b3 * 2 ^ 8 + b4 := by
      unfold encode_uint32
      rw [e1, e2, e3]
    exact ⟨h, by rw [h]; omega⟩

/-- Witness for encode_uint_spec at concrete bytes. -/
theorem encode_uint_spec_witness :
    encode_uint16 0xAB 0x01 = 0xAB * 2 ^ 8 + 0x01 ∧
      encode_uint32 5 6 7 8 = 5 * 2 ^ 24 + 6 * 2 ^ 16 + 7 * 2 ^ 8 + 8 :=
  ⟨(encode_uint_spec.1 0xAB 0x01 (by decide) (by decide)).1,
    (encode_uint_spec.2.1 5 6 7 8 (by decide) (by decide) (by decide) (by decide)).1⟩

/-- C2: allocate first tries the preferred external-RAM pool (present exactly
on ESP32 targets); if that yields no pointer it tries the primary heap unless
REFUSE_INTERNAL is set; if no pool yields a pointer it returns nullptr when
ALLOW_FAILURE is set and aborts when it is not. -/
theorem allocate_policy_spec :
    ∀ (esp32 : Bool) (ext heap : Option Nat) (flags : Nat),
    (∀ p, esp32 = true → ext = some p → allocate esp32 ext heap flags = .ok p) ∧
    ((esp32 = true → ext = none) → flags &&& REFUSE_INTERNAL = 0 →
      ∀ p, heap = some p → allocate esp32 ext heap flags = .ok p) ∧
    ((esp32 = true → ext = none) → (flags &&& REFUSE_INTERNAL ≠ 0 ∨ heap = none) →
      allocate esp32 ext heap flags =
        if flags &&& ALLOW_FAILURE = 0 then .aborted else .fail) := by
  intro esp32 ext heap flags
  refine ⟨?_, ?_, ?_⟩
  · intro p h1 h2
    subst h1
    subst h2
    simp [allocate]
  · intro hext hflag p hheap
    subst hheap
    cases esp32 with
    | false => simp [allocate, hflag]
    | true => simp [allocate, hext rfl, hflag]
  · intro hext hfail
    have hptr : (if esp32 = true then ext else none) = none := by
      cases esp32 with
      | false => rfl
      | true => simpa using hext rfl
    rcases hfail with hflag | hheap
    · simp [allocate, hptr, hflag]
    · subst hheap
      simp [allocate, hptr]

/-- Witness for allocate_policy_spec: on an ESP32 with the external pool
serving pointer 5 the allocation returns 5; with no pool available and
ALLOW_FAILURE clear it aborts. -/
theorem allocate_policy_spec_witness :
    allocate true (some 5) none 0 = .ok 5 ∧
      allocate false none none 0 = .aborted := by
  constructor
  · exact (allocate_policy_spec true (some 5) none 0).1 5 rfl rfl
  · exact ((allocate_policy_spec false none none 0).2.2 (by simp) (Or.inr rfl)).trans
      (by decide)

/-- Counterexample to C3 as stated: on a platform without the secondary pool,
with REFUSE_INTERNAL set and ALLOW_FAILURE clear, allocate aborts even though
the primary heap could serve the request, while a plain primary-heap
allocation under the same AllowFailure policy returns the pointer. -/
theorem allocate_no_secondary_counterexample :
    allocate false none (some 7) REFUSE_INTERNAL = .aborted ∧
      heap_allocate (some 7) (REFUSE_INTERNAL &&& ALLOW_FAILURE != 0) = .ok 7 ∧
      allocate false none (some 7) REFUSE_INTERNAL ≠
        heap_allocate (some 7) (REFUSE_INTERNAL &&& ALLOW_FAILURE != 0) := by
  refine ⟨by decide, by decide, by decide⟩

/-- C3 amended: on platforms lacking the secondary pool, allocate is
equivalent to a plain primary-heap allocation with the same AllowFailure
policy for every flag combination in which REFUSE_INTERNAL is clear; when
REFUSE_INTERNAL is set no pool is consulted at all and the result is nullptr
or abort according to ALLOW_FAILURE, regardless of heap availability. -/
theorem allocate_no_secondary_spec :
    ∀ (ext heap : Option Nat) (flags : Nat),
    (flags &&& REFUSE_INTERNAL = 0 →
      allocate false ext heap flags = heap_allocate heap (flags &&& ALLOW_FAILURE != 0)) ∧
    (flags &&& REFUSE_INTERNAL ≠ 0 →
      allocate false ext heap flags =
        if flags &&& ALLOW_FAILURE = 0 then .aborted else .fail) := by
  intro ext heap flags
  constructor
  · intro hflag
    cases heap with
    | none => simp [allocate, heap_allocate, hflag]
    | some p => simp [allocate, heap_allocate, hflag]
  · intro hflag
    simp [allocate, hflag]

/-- Witness for allocate_no_secondary_spec: with default flags the two
allocators agree on a successful heap allocation; with REFUSE_INTERNAL set
allocate aborts. -/
theorem allocate_no_secondary_spec_witness :
    allocate false none (some 3) 0 = heap_allocate (some 3) (0 &&& ALLOW_FAILURE != 0) ∧
      allocate false none (some 3) REFUSE_INTERNAL =
        if REFUSE_INTERNAL &&& ALLOW_FAILURE = 0 then .aborted else .fail :=
  ⟨(allocate_no_secondary_spec none (some 3) 0).1 rfl,
    (allocate_no_secondary_spec none (some 3) REFUSE_INTERNAL).2 (by decide)⟩

/-- C9: the fast PRNG is deterministic in its seed: whatever the transition
and mixing functions are, the outputs drawn after a reseed do not depend on
the state before the reseed, and in the trace reseed 42, draw 32, reseed 42,
draw 32 the two drawn values are equal. -/
theorem prng_determinism_spec :
    ∀ (step mix16 mix8 : Nat → Nat) (seed : Nat) (ops : List PrngOp) (s1 s2 : Nat),
    (prngRun step mix16 mix8 (.reseed seed :: ops) s1).1 =
      (prngRun step mix16 mix8 (.reseed seed :: ops) s2).1 ∧
    ∀ a b : Nat,
      (prngRun step mix16 mix8
          [.reseed 42, .draw .d32, .reseed 42, .draw .d32] s1).1 = [a, b] →
      a = b := by
  intro step mix16 mix8 seed ops s1 s2
  constructor
  · rfl
  · intro a b h
    simp [prngRun, prngDraw] at h
    omega

/-- Witness for prng_determinism_spec with the identity transition: the trace
reseed 42, draw, reseed 42, draw outputs 42 twice. -/
theorem prng_determinism_spec_witness : (42 : Nat) = 42 :=
  (prng_determinism_spec id id id 42 [] 0 7).2 42 42 rfl

/-! Lemmas about ofBytesBE, encode_value and decode_value. -/

theorem ofBytesBE_append (xs : List Nat) (b : Nat) :
    ofBytesBE (xs ++ [b]) = ofBytesBE xs * 256 + b := by
  unfold ofBytesBE
  rw [List.foldl_append]
  rfl

theorem foldlBE_lt : ∀ (xs : List Nat) (v k : Nat), (∀ b ∈ xs, b < 256) → v < 2 ^ k →
    List.foldl (fun val b => val * 256 + b) v xs < 2 ^ (k + 8 * xs.length) := by
  intro xs
  induction xs with
  | nil =>
    intro v k _ hv
    simpa using hv
  | cons b bs ih =>
    intro v k hb hv
    have hb1 : b < 256 := hb b (by simp)
    have hstep : v * 256 + b < 2 ^ (k + 8) := by
      have h2 : 2 ^ (k + 8) = 2 ^ k * 256 := by rw [pow_add]; norm_num
      omega
    have h := ih (v * 256 + b) (k + 8) (fun x hx => hb x (by simp [hx])) hstep
    have harith : k + 8 + 8 * bs.length = k + 8 * (b :: bs).length := by
      simp only [List.length_cons]
      ring
    rw [harith] at h
    exact h

theorem ofBytesBE_lt (xs : List Nat) (h : ∀ b ∈ xs, b < 256) :
    ofBytesBE xs < 2 ^ (8 * xs.length) := by
  have h0 := foldlBE_lt xs 0 0 h (by norm_num)
  simpa using h0

theorem encode_value_foldl : ∀ (xs : List Nat) (v w : Nat), (∀ b ∈ xs, b < 256) →
    xs.length ≤ w → v < 2 ^ (8 * (w - xs.length)) →
    List.foldl (fun val b => ((val <<< 8) % 2 ^ (8 * w)) ||| b) v xs =
      List.foldl (fun val b => val * 256 + b) v xs := by
  intro xs
  induction xs with
  | nil => intro v w _ _ _; rfl
  | cons b bs ih =>
    intro v w hb hlen hv
    have hb1 : b < 256 := hb b (by simp)
    have hlen1 : bs.length + 1 ≤ w := by simpa using hlen
    have e1 : 8 * (w - (b :: bs).length) + 8 = 8 * (w - bs.length) := by
      simp only [List.length_cons]
      omega
    have hv256 : v * 256 + b < 2 ^ (8 * (w - bs.length)) := by
      have h2 : 2 ^ (8 * (w - bs.length)) = 2 ^ (8 * (w - (b :: bs).length)) * 256 := by
        rw [← e1, pow_add]
        norm_num
      omega
    have hvw : v * 256 < 2 ^ (8 * w) := by
      have hle : 2 ^ (8 * (w - bs.length)) ≤ 2 ^ (8 * w) :=
        Nat.pow_le_pow_right (by norm_num) (by omega)
      omega
    have hshift : (v <<< 8) % 2 ^ (8 * w) ||| b = v * 256 + b := by
      rw [Nat.shiftLeft_eq]
      norm_num
      rw [Nat.mod_eq_of_lt hvw]
      exact lor_eq_add_of_lt (n := 8) ⟨v, by ring⟩ (by omega)
    simp only [List.foldl_cons]
    rw [hshift]
    exact ih (v * 256 + b) w (fun x hx => hb x (by simp [hx])) (by omega) hv256

theorem encode_value_eq_ofBytesBE (W : Width) (bytes : List Nat)
    (hb : ∀ b ∈ bytes, b < 256) (hlen : bytes.length = W.size) :
    encode_value W bytes = ofBytesBE bytes := by
  unfold encode_value ofBytesBE
  exact encode_value_foldl bytes 0 W.size hb (by omega) (Nat.two_pow_pos _)

theorem decode_loop_acc : ∀ (w v : Nat) (acc : List Nat),
    decode_loop w v acc = decode_loop w v [] ++ acc := by
  intro w
  induction w with
  | zero => intro v acc; rfl
  | succ n ih =>
    intro v acc
    simp only [decode_loop]
    rw [ih (v >>> 8) ((v &&& 255) :: acc), ih (v >>> 8) [v &&& 255]]
    simp

theorem decode_loop_length : ∀ (w v : Nat), (decode_loop w v []).length = w := by
  intro w
  induction w with
  | zero => intro v; rfl
  | succ n ih =>
    intro v
    simp only [decode_loop]
    rw [decode_loop_acc]
    simp [ih]

theorem decode_loop_bytes_lt : ∀ (w v : Nat), ∀ b ∈ decode_loop w v [], b < 256 := by
  intro w
  induction w with
  | zero => intro v b hb; simp [decode_loop] at hb
  | succ n ih =>
    intro v b hb
    simp only [decode_loop] at hb
    rw [decode_loop_acc] at hb
    rcases List.mem_append.mp hb with h | h
    · exact ih (v >>> 8) b h
    · have hb2 : b = v &&& 255 := by simpa using h
      rw [hb2, and_255_eq_mod]
      omega

theorem ofBytesBE_decode_loop : ∀ (w v : Nat),
    ofBytesBE (decode_loop w v []) = v % 2 ^ (8 * w) := by
  intro w
  induction w with
  | zero =>
    intro v
    simp [decode_loop, ofBytesBE]
    omega
  | succ n ih =>
    intro v
    simp only [decode_loop]
    rw [decode_loop_acc, ofBytesBE_append, ih, shiftRight_8_eq_div, and_255_eq_mod]
    have h2 : 2 ^ (8 * (n + 1)) = 256 * 2 ^ (8 * n) := by
      have : 8 * (n + 1) = 8 + 8 * n := by ring
      rw [this, pow_add]
      norm_num
    rw [h2, Nat.mod_mul]
    set K := 2 ^ (8 * n)
    set t := v / 256 % K
    ring

theorem decode_loop_ofBytesBE : ∀ (xs : List Nat), (∀ b ∈ xs, b < 256) →
    decode_loop xs.length (ofBytesBE xs) [] = xs := by
  intro xs
  induction xs using List.reverseRecOn with
  | nil => intro _; rfl
  | append_singleton xs b ih =>
    intro hb
    have hb1 : b < 256 := hb b (by simp)
    have hxs : ∀ x ∈ xs, x < 256 := fun x hx => hb x (by simp [hx])
    have hV : ofBytesBE (xs ++ [b]) = ofBytesBE xs * 256 + b := ofBytesBE_append xs b
    have hlen : (xs ++ [b]).length = xs.length + 1 := by simp
    rw [hlen, hV]
    simp only [decode_loop]
    rw [decode_loop_acc, shiftRight_8_eq_div, and_255_eq_mod]
    have hdiv : (ofBytesBE xs * 256 + b) / 256 = ofBytesBE xs := by omega
    have hmod : (ofBytesBE xs * 256 + b) % 256 = b := by omega
    rw [hdiv, hmod, ih hxs]

/-- C4: for every width in 1, 2, 4, 8 bytes the conversion between byte
sequences and fixed-width integers is a bijection: decode_value inverts
encode_value on every byte sequence of the right length, and encode_value
inverts decode_value on every value below 2 ^ (8 * width). -/
theorem value_codec_bijective :
    (∀ (W : Width) (bytes : List Nat), bytes.length = W.size → (∀ b ∈ bytes, b < 256) →
      decode_value W (encode_value W bytes) = bytes) ∧
    (∀ (W : Width) (v : Nat), v < 2 ^ (8 * W.size) →
      encode_value W (decode_value W v) = v) := by
  constructor
  · intro W bytes hlen hb
    rw [encode_value_eq_ofBytesBE W bytes hb hlen]
    unfold decode_value
    rw [← hlen]
    exact decode_loop_ofBytesBE bytes hb
  · intro W v hv
    unfold decode_value
    rw [encode_value_eq_ofBytesBE W _ (decode_loop_bytes_lt _ _) (decode_loop_length _ _),
      ofBytesBE_decode_loop]
    exact Nat.mod_eq_of_lt hv

/-- Witness for value_codec_bijective at width 2 and width 4. -/
theorem value_codec_bijective_witness :
    decode_value .w2 (encode_value .w2 [0xAB, 0xCD]) = [0xAB, 0xCD] ∧
      encode_value .w4 (decode_value .w4 0x01020304) = 0x01020304 :=
  ⟨value_codec_bijective.1 .w2 [0xAB, 0xCD] rfl (by decide),
    value_codec_bijective.2 .w4 0x01020304 (by norm_num [Width.size])⟩

/-! Explicit byte lists of decode_value at each width. -/

theorem decode_w1_eq (n : Nat) : decode_value .w1 n = [n % 256] := by
  simp [decode_value, Width.size, decode_loop, and_255_eq_mod]

theorem decode_w2_eq (n : Nat) : decode_value .w2 n = [n / 2 ^ 8 % 256, n % 256] := by
  simp only [decode_value, Width.size, decode_loop, and_255_eq_mod, shiftRight_8_eq_div]
  norm_num

theorem decode_w4_eq (n : Nat) : decode_value .w4 n =
    [n / 2 ^ 24 % 256, n / 2 ^ 16 % 256, n / 2 ^ 8 % 256, n % 256] := by
  simp only [decode_value, Width.size, decode_loop, and_255_eq_mod, shiftRight_8_eq_div,
    Nat.div_div_eq_div_mul]
  norm_num

theorem decode_w8_eq (n : Nat) : decode_value .w8 n =
    [n / 2 ^ 56 % 256, n / 2 ^ 48 % 256, n / 2 ^ 40 % 256, n / 2 ^ 32 % 256,
      n / 2 ^ 24 % 256, n / 2 ^ 16 % 256, n / 2 ^ 8 % 256, n % 256] := by
  simp only [decode_value, Width.size, decode_loop, and_255_eq_mod, shiftRight_8_eq_div,
    Nat.div_div_eq_div_mul]
  norm_num

theorem byteswap_eq_ofBytesBE (W : Width) (n : Nat) (h : n < 2 ^ (8 * W.size)) :
    byteswap W n = ofBytesBE ((decode_value W n).reverse) := by
  cases W with
  | w1 =>
    simp only [Width.size] at h
    rw [decode_w1_eq]
    simp only [byteswap, List.reverse_singleton, ofBytesBE, List.foldl]
    omega
  | w2 =>
    rw [byteswap, bswap16, decode_w2_eq]
    simp only [List.reverse_cons, List.reverse_nil, List.nil_append, List.cons_append,
      ofBytesBE, List.foldl]
    ring
  | w4 =>
    rw [byteswap, bswap32, decode_w4_eq]
    simp only [List.reverse_cons, List.reverse_nil, List.nil_append, List.cons_append,
      ofBytesBE, List.foldl]
    ring
  | w8 =>
    rw [byteswap, bswap64, decode_w8_eq]
    simp only [List.reverse_cons, List.reverse_nil, List.nil_append, List.cons_append,
      ofBytesBE, List.foldl]
    ring

theorem decode_reverse_length (W : Width) (n : Nat) :
    ((decode_value W n).reverse).length = W.size := by
  simp [decode_value, decode_loop_length]

theorem decode_reverse_bytes_lt (W : Width) (n : Nat) :
    ∀ b ∈ (decode_value W n).reverse, b < 256 := by
  intro b hb
  exact decode_loop_bytes_lt _ _ b (List.mem_reverse.mp hb)

theorem byteswap_lt (W : Width) (n : Nat) (h : n < 2 ^ (8 * W.size)) :
    byteswap W n < 2 ^ (8 * W.size) := by
  rw [byteswap_eq_ofBytesBE W n h]
  have hl := ofBytesBE_lt ((decode_value W n).reverse) (decode_reverse_bytes_lt W n)
  rwa [decode_reverse_length] at hl

theorem decode_value_ofBytesBE (W : Width) (xs : List Nat) (hlen : xs.length = W.size)
    (hb : ∀ b ∈ xs, b < 256) : decode_value W (ofBytesBE xs) = xs := by
  unfold decode_value
  rw [← hlen]
  exact decode_loop_ofBytesBE xs hb

theorem decode_byteswap (W : Width) (n : Nat) (h : n < 2 ^ (8 * W.size)) :
    decode_value W (byteswap W n) = (decode_value W n).reverse := by
  rw [byteswap_eq_ofBytesBE W n h]
  exact decode_value_ofBytesBE W _ (decode_reverse_length W n) (decode_reverse_bytes_lt W n)

theorem byteswap_involution (W : Width) (n : Nat) (h : n < 2 ^ (8 * W.size)) :
    byteswap W (byteswap W n) = n := by
  rw [byteswap_eq_ofBytesBE W (byteswap W n) (byteswap_lt W n h), decode_byteswap W n h,
    List.reverse_reverse]
  unfold decode_value
  rw [ofBytesBE_decode_loop]
  exact Nat.mod_eq_of_lt h

/-- C7: convert_big_endian is an involution regardless of host byte order,
byteswap is an involution at every width, byteswap reverses the byte order of
the value unconditionally (its decoded big-endian byte list is the reversed
one), and at width 1 byteswap is the identity. -/
theorem byte_order_involution_spec :
    (∀ (little : Bool) (W : Width) (n : Nat), n < 2 ^ (8 * W.size) →
      convert_big_endian little W (convert_big_endian little W n) = n) ∧
    (∀ (W : Width) (n : Nat), n < 2 ^ (8 * W.size) →
      byteswap W (byteswap W n) = n) ∧
    (∀ (W : Width) (n : Nat), n < 2 ^ (8 * W.size) →
      decode_value W (byteswap W n) = (decode_value W n).reverse) ∧
    (∀ n : Nat, n < 2 ^ 8 → byteswap .w1 n = n) := by
  refine ⟨?_, byteswap_involution, decode_byteswap, fun n _ => rfl⟩
  intro little W n h
  cases little with
  | false => rfl
  | true => simpa only [convert_big_endian, if_true] using byteswap_involution W n h

/-- Witness for byte_order_involution_spec at widths 4, 2 and 1. -/
theorem byte_order_involution_spec_witness :
    convert_big_endian true .w4 (convert_big_endian true .w4 0xDEADBEEF) = 0xDEADBEEF ∧
      byteswap .w4 (byteswap .w4 0x12345678) = 0x12345678 ∧
      decode_value .w2 (byteswap .w2 0xABCD) = (decode_value .w2 0xABCD).reverse ∧
      byteswap .w1 0x7F = 0x7F :=
  ⟨byte_order_involution_spec.1 true .w4 0xDEADBEEF (by norm_num [Width.size]),
    byte_order_involution_spec.2.1 .w4 0x12345678 (by norm_num [Width.size]),
    byte_order_involution_spec.2.2.1 .w2 0xABCD (by norm_num [Width.size]),
    byte_order_involution_spec.2.2.2 0x7F (by norm_num)⟩

set_option maxRecDepth 4096 in
theorem reverse_bits_8_lt : ∀ x < 256, reverse_bits_8 x < 256 := by decide

set_option maxRecDepth 4096 in
theorem reverse_bits_8_involution : ∀ x < 256, reverse_bits_8 (reverse_bits_8 x) = x := by decide

theorem rb16_eq (x : Nat) : reverse_bits_16 x =
    reverse_bits_8 (x % 256) * 256 + reverse_bits_8 (x / 256 % 256) := by
  unfold reverse_bits_16
  rw [and_255_eq_mod, shiftRight_8_eq_div, and_255_eq_mod, Nat.shiftLeft_eq]
  have hb : reverse_bits_8 (x / 256 % 256) < 2 ^ 8 :=
    lt_of_lt_of_le (reverse_bits_8_lt _ (Nat.mod_lt _ (by norm_num))) (by norm_num)
  rw [lor_eq_add_of_lt (n := 8) ⟨reverse_bits_8 (x % 256), by ring⟩ hb]

theorem rb16_lt (x : Nat) : reverse_bits_16 x < 2 ^ 16 := by
  rw [rb16_eq]
  have h1 := reverse_bits_8_lt (x % 256) (Nat.mod_lt _ (by norm_num))
  have h2 := reverse_bits_8_lt (x / 256 % 256) (Nat.mod_lt _ (by norm_num))
  omega

theorem rb16_involution : ∀ x < 2 ^ 16, reverse_bits_16 (reverse_bits_16 x) = x := by
  intro x hx
  rw [rb16_eq, rb16_eq]
  have ha := reverse_bits_8_lt (x % 256) (Nat.mod_lt _ (by norm_num))
  have hb := reverse_bits_8_lt (x / 256 % 256) (Nat.mod_lt _ (by norm_num))
  set a := reverse_bits_8 (x % 256) with hadef
  set b := reverse_bits_8 (x / 256 % 256) with hbdef
  have h1 : (a * 256 + b) % 256 = b := by omega
  have h2 : (a * 256 + b) / 256 % 256 = a := by omega
  rw [h1, h2, hadef, hbdef, reverse_bits_8_involution (x % 256) (Nat.mod_lt _ (by norm_num)),
    reverse_bits_8_involution (x / 256 % 256) (Nat.mod_lt _ (by norm_num))]
  omega

theorem rb32_eq (x : Nat) : reverse_bits_32 x =
    reverse_bits_16 (x % 65536) * 65536 + reverse_bits_16 (x / 65536 % 65536) := by
  unfold reverse_bits_32
  rw [and_65535_eq_mod, shiftRight_16_eq_div, and_65535_eq_mod, Nat.shiftLeft_eq]
  have hb : reverse_bits_16 (x / 65536 % 65536) < 2 ^ 16 := rb16_lt _
  rw [lor_eq_add_of_lt (n := 16) ⟨reverse_bits_16 (x % 65536), by ring⟩ hb]

theorem rb32_lt (x : Nat) : reverse_bits_32 x < 2 ^ 32 := by
  rw [rb32_eq]
  have h1 := rb16_lt (x % 65536)
  have h2 := rb16_lt (x / 65536 % 65536)
  omega

theorem rb32_involution : ∀ x < 2 ^ 32, reverse_bits_32 (reverse_bits_32 x) = x := by
  intro x hx
  rw [rb32_eq, rb32_eq]
  have ha := rb16_lt (x % 65536)
  have hb := rb16_lt (x / 65536 % 65536)
  set a := reverse_bits_16 (x % 65536) with hadef
  set b := reverse_bits_16 (x / 65536 % 65536) with hbdef
  have h1 : (a * 65536 + b) % 65536 = b := by omega
  have h2 : (a * 65536 + b) / 65536 % 65536 = a := by omega
  rw [h1, h2, hadef, hbdef, rb16_involution (x % 65536) (Nat.mod_lt _ (by norm_num)),
    rb16_involution (x / 65536 % 65536) (Nat.mod_lt _ (by norm_num))]
  omega

theorem byteswap_ofBytesBE (W : Width) (xs : List Nat) (hlen : xs.length = W.size)
    (hb : ∀ b ∈ xs, b < 256) : byteswap W (ofBytesBE xs) = ofBytesBE xs.reverse := by
  have hv : ofBytesBE xs < 2 ^ (8 * W.size) := by
    have h := ofBytesBE_lt xs hb
    rwa [hlen] at h
  rw [byteswap_eq_ofBytesBE W _ hv, decode_value_ofBytesBE W xs hlen hb]

theorem rb16_consistency (x : Nat) :
    reverse_bits_16 x =
      byteswap .w2 (encode_value .w2 ((decode_value .w2 x).map reverse_bits_8)) := by
  rw [decode_w2_eq]
  simp only [List.map_cons, List.map_nil]
  have hbytes : ∀ b ∈ [reverse_bits_8 (x / 2 ^ 8 % 256), reverse_bits_8 (x % 256)], b < 256 := by
    intro b hb
    rcases List.mem_cons.mp hb with h | h
    · rw [h]; exact reverse_bits_8_lt _ (Nat.mod_lt _ (by norm_num))
    · have h2 : b = reverse_bits_8 (x % 256) := by simpa using h
      rw [h2]; exact reverse_bits_8_lt _ (Nat.mod_lt _ (by norm_num))
  rw [encode_value_eq_ofBytesBE .w2 _ hbytes rfl,
    byteswap_ofBytesBE .w2 [reverse_bits_8 (x / 2 ^ 8 % 256), reverse_bits_8 (x % 256)]
      rfl hbytes]
  simp only [List.reverse_cons, List.reverse_nil, List.nil_append, List.cons_append]
  rw [rb16_eq]
  simp only [ofBytesBE, List.foldl]
  norm_num

theorem rb32_consistency (x : Nat) :
    reverse_bits_32 x =
      byteswap .w4 (encode_value .w4 ((decode_value .w4 x).map reverse_bits_8)) := by
  rw [decode_w4_eq]
  simp only [List.map_cons, List.map_nil]
  have hbytes : ∀ b ∈ [reverse_bits_8 (x / 2 ^ 24 % 256), reverse_bits_8 (x / 2 ^ 16 % 256),
      reverse_bits_8 (x / 2 ^ 8 % 256), reverse_bits_8 (x % 256)], b < 256 := by
    intro b hb
    simp only [List.mem_cons, List.not_mem_nil, or_false] at hb
    rcases hb with h | h | h | h <;>
      (rw [h]; exact reverse_bits_8_lt _ (Nat.mod_lt _ (by norm_num)))
  rw [encode_value_eq_ofBytesBE .w4 _ hbytes rfl,
    byteswap_ofBytesBE .w4 [reverse_bits_8 (x / 2 ^ 24 % 256), reverse_bits_8 (x / 2 ^ 16 % 256),
      reverse_bits_8 (x / 2 ^ 8 % 256), reverse_bits_8 (x % 256)] rfl hbytes]
  simp only [List.reverse_cons, List.reverse_nil, List.nil_append, List.cons_append]
  rw [rb32_eq, rb16_eq, rb16_eq]
  have h65536 : (65536 : Nat) = 256 * 256 := by norm_num
  have g1 : x % 65536 % 256 = x % 256 := Nat.mod_mod_of_dvd x (by norm_num)
  have g2 : x % 65536 / 256 % 256 = x / 2 ^ 8 % 256 := by
    rw [h65536, Nat.mod_mul_right_div_self, Nat.mod_mod_of_dvd _ dvd_rfl]
    norm_num
  have g3 : x / 65536 % 65536 % 256 = x / 2 ^ 16 % 256 := by
    rw [Nat.mod_mod_of_dvd _ (by norm_num : (256 : Nat) ∣ 65536)]
    norm_num
  have g4 : x / 65536 % 65536 / 256 % 256 = x / 2 ^ 24 % 256 := by
    rw [h65536, Nat.mod_mul_right_div_self, Nat.mod_mod_of_dvd _ dvd_rfl,
      Nat.div_div_eq_div_mul]
    norm_num
  rw [g1, g2, g3, g4]
  simp only [ofBytesBE, List.foldl]
  ring

/-- C10: reverse_bits is an involution at widths 8, 16 and 32 bits, and the
16- and 32-bit forms are consistent with the 8-bit form: the wider reversal is
the byte swap of the per-byte 8-bit reversal. -/
theorem reverse_bits_spec :
    (∀ x : Nat, x < 2 ^ 8 → reverse_bits_8 (reverse_bits_8 x) = x) ∧
    (∀ x : Nat, x < 2 ^ 16 → reverse_bits_16 (reverse_bits_16 x) = x) ∧
    (∀ x : Nat, x < 2 ^ 32 → reverse_bits_32 (reverse_bits_32 x) = x) ∧
    (∀ x : Nat,
      reverse_bits_16 x =
        byteswap .w2 (encode_value .w2 ((decode_value .w2 x).map reverse_bits_8))) ∧
    (∀ x : Nat,
      reverse_bits_32 x =
        byteswap .w4 (encode_value .w4 ((decode_value .w4 x).map reverse_bits_8))) :=
  ⟨fun x hx => reverse_bits_8_involution x (by omega), rb16_involution, rb32_involution,
    rb16_consistency, rb32_consistency⟩

/-- Witness for reverse_bits_spec at concrete values. -/
theorem reverse_bits_spec_witness :
    reverse_bits_8 (reverse_bits_8 0xA5) = 0xA5 ∧
      reverse_bits_16 (reverse_bits_16 0x1234) = 0x1234 ∧
      reverse_bits_32 (reverse_bits_32 0xDEADBEEF) = 0xDEADBEEF :=
  ⟨reverse_bits_spec.1 0xA5 (by norm_num), reverse_bits_spec.2.1 0x1234 (by norm_num),
    reverse_bits_spec.2.2.1 0xDEADBEEF (by norm_num)⟩


/-! Lemmas about the hex parser. -/

theorem hexVal_lt {c v : Nat} (h : hexVal c = some v) : v < 16 := by
  unfold hexVal at h
  split_ifs at h <;> simp_all <;> omega

theorem hexVal_getD_lt (c : Nat) : (hexVal c).getD 0 < 16 := by
  cases hv : hexVal c with
  | none => simp
  | some v => simpa using hexVal_lt hv

theorem bytesOfHex_lt : ∀ cs : List Nat, ∀ b ∈ bytesOfHex cs, b < 256
  | [] => by simp [bytesOfHex]
  | [c] => by simp [bytesOfHex]
  | c1 :: c2 :: rest => by
    intro b hb
    simp only [bytesOfHex, List.mem_cons] at hb
    rcases hb with h | h
    · have h1 := hexVal_getD_lt c1
      have h2 := hexVal_getD_lt c2
      omega
    · exact bytesOfHex_lt rest b h

theorem bytesOfHex_length : ∀ cs : List Nat, (bytesOfHex cs).length = cs.length / 2
  | [] => by simp [bytesOfHex]
  | [c] => by simp [bytesOfHex]
  | c1 :: c2 :: rest => by
    simp only [bytesOfHex, List.length_cons, bytesOfHex_length rest]
    omega

theorem parse_hex_consumed_le (str : List Nat) (len : Nat) (data : List Nat) (count : Nat) :
    (parse_hex_buf str len data count).2 ≤ min len (2 * count) := by
  simp only [parse_hex_buf]
  split <;> simp

theorem parse_hex_buf_invalid (str : List Nat) (len : Nat) (data : List Nat) (count : Nat)
    (h : ∃ c ∈ str.take (min len (2 * count)), hexVal c = none) :
    parse_hex_buf str len data count = (data, 0) := by
  obtain ⟨c, hc, hnone⟩ := h
  unfold parse_hex_buf
  have hall : ((str.take (min len (2 * count))).all fun c => (hexVal c).isSome) = false := by
    rw [List.all_eq_false]
    exact ⟨c, hc, by simp [hnone]⟩
  simp [hall]

theorem parse_hex_buf_valid (str : List Nat) (len : Nat) (data : List Nat) (count : Nat)
    (h : ∀ c ∈ str.take (min len (2 * count)), (hexVal c).isSome = true) :
    parse_hex_buf str len data count =
      (data.take (count - (min len (2 * count) + 1) / 2) ++
        (bytesOfHex (List.replicate (2 * count - min len (2 * count)) 48 ++
          str.take (min len (2 * count)))).drop (count - (min len (2 * count) + 1) / 2),
        min len (2 * count)) := by
  unfold parse_hex_buf
  have hall : ((str.take (min len (2 * count))).all fun c => (hexVal c).isSome) = true := by
    rw [List.all_eq_true]
    exact h
  simp [hall]

/-- C5: the strict bool form of parse_hex returns true exactly when the
buffer-form parse consumes exactly 2*count characters, and returns false on
any shortfall of the input or on any invalid character among the examined
characters. -/
theorem parse_hex_strict_spec :
    ∀ (str data : List Nat) (count : Nat),
    ((parse_hex_strict str data count).1 = true ↔
      (parse_hex_buf str str.length data count).2 = 2 * count) ∧
    (str.length < 2 * count → (parse_hex_strict str data count).1 = false) ∧
    ((∃ c ∈ str.take (min str.length (2 * count)), hexVal c = none) → 0 < count →
      (parse_hex_strict str data count).1 = false) := by
  intro str data count
  refine ⟨by simp [parse_hex_strict], ?_, ?_⟩
  · intro hshort
    have hle := parse_hex_consumed_le str str.length data count
    simp only [parse_hex_strict, beq_eq_false_iff_ne, ne_eq]
    omega
  · intro hinv hcount
    have h0 := parse_hex_buf_invalid str str.length data count hinv
    simp only [parse_hex_strict, h0, beq_eq_false_iff_ne, ne_eq]
    omega

/-- Witness for parse_hex_strict_spec: a one-character input for one byte is a
shortfall, and an invalid second character fails the strict parse. -/
theorem parse_hex_strict_spec_witness :
    (parse_hex_strict [0x61] [0] 1).1 = false ∧
      (parse_hex_strict [0x61, 0x78] [0] 1).1 = false :=
  ⟨(parse_hex_strict_spec [0x61] [0] 1).2.1 (by decide),
    (parse_hex_strict_spec [0x61, 0x78] [0] 1).2.2 ⟨0x78, by decide, by decide⟩ (by decide)⟩

/-- C6: when the input is shorter than 2*count characters and consists of hex
digits, the buffer-form parse consumes exactly len characters, leaves the
un-covered leading bytes of the buffer at their prior values, and fills the
tail exactly as the parse of the input left-padded with ASCII 48 to 2*count
characters would; concretely, parsing "bcd" into a zeroed 2-byte buffer
consumes 3 characters and yields the bytes 0x0B 0xCD. -/
theorem parse_hex_right_align_spec :
    (∀ (str : List Nat) (len : Nat) (data : List Nat) (count : Nat),
      len ≤ str.length → len < 2 * count → data.length = count →
      (∀ c ∈ str.take len, (hexVal c).isSome = true) →
      (parse_hex_buf str len data count).2 = len ∧
      (parse_hex_buf str len data count).1.take (count - (len + 1) / 2) =
        data.take (count - (len + 1) / 2) ∧
      (parse_hex_buf str len data count).1.drop (count - (len + 1) / 2) =
        (parse_hex_buf (List.replicate (2 * count - len) 48 ++ str.take len)
            (2 * count) data count).1.drop (count - (len + 1) / 2)) ∧
    parse_hex_buf [0x62, 0x63, 0x64] 3 [0, 0] 2 = ([0x0B, 0xCD], 3) := by
  constructor
  · intro str len data count hstr hshort hdata hvalid
    have hmin : min len (2 * count) = len := by omega
    have hval2 : ∀ c ∈ str.take (min len (2 * count)), (hexVal c).isSome = true := by
      rw [hmin]
      exact hvalid
    have heq := parse_hex_buf_valid str len data count hval2
    rw [hmin] at heq
    have htklen : (str.take len).length = len := by
      rw [List.length_take]
      omega
    have hpadlen : (List.replicate (2 * count - len) 48 ++ str.take len).length = 2 * count := by
      rw [List.length_append, List.length_replicate, htklen]
      omega
    have hpadtake : (List.replicate (2 * count - len) 48 ++ str.take len).take (2 * count) =
        List.replicate (2 * count - len) 48 ++ str.take len :=
      List.take_of_length_le (le_of_eq hpadlen)
    have hpadvalid : ∀ c ∈ (List.replicate (2 * count - len) 48 ++ str.take len).take
        (min (2 * count) (2 * count)), (hexVal c).isSome = true := by
      rw [min_self, hpadtake]
      intro c hc
      rcases List.mem_append.mp hc with h | h
      · have hc48 : c = 48 := List.eq_of_mem_replicate h
        rw [hc48]
        decide
      · exact hvalid c h
    have heq2 := parse_hex_buf_valid (List.replicate (2 * count - len) 48 ++ str.take len)
      (2 * count) data count hpadvalid
    simp only [min_self] at heq2
    have hu0 : count - (2 * count + 1) / 2 = 0 := by omega
    rw [hpadtake, hu0] at heq2
    simp only [Nat.sub_self, List.replicate_zero, List.nil_append, List.take_zero,
      List.drop_zero] at heq2
    have hulen : (data.take (count - (len + 1) / 2)).length = count - (len + 1) / 2 := by
      rw [List.length_take]
      omega
    have h1 : (parse_hex_buf str len data count).1 =
        data.take (count - (len + 1) / 2) ++
          (bytesOfHex (List.replicate (2 * count - len) 48 ++ str.take len)).drop
            (count - (len + 1) / 2) := by
      rw [heq]
    have h2 : (parse_hex_buf str len data count).2 = len := by
      rw [heq]
    have h3 : (parse_hex_buf (List.replicate (2 * count - len) 48 ++ str.take len)
        (2 * count) data count).1 =
          bytesOfHex (List.replicate (2 * count - len) 48 ++ str.take len) := by
      rw [heq2]
    refine ⟨h2, ?_, ?_⟩
    · rw [h1, List.take_left' hulen]
    · rw [h1, h3, List.drop_left' hulen]
  · decide

/-- Witness for parse_hex_right_align_spec: parsing "bcd" into a buffer with
prior contents consumes 3 characters, and parsing "cd" into a 2-byte buffer
keeps the prior leading byte. -/
theorem parse_hex_right_align_spec_witness :
    (parse_hex_buf [0x62, 0x63, 0x64] 3 [7, 7] 2).2 = 3 ∧
      (parse_hex_buf [0x63, 0x64] 2 [7, 0] 2).1.take 1 = [7] := by
  refine ⟨(parse_hex_right_align_spec.1 [0x62, 0x63, 0x64] 3 [7, 7] 2 (by decide) (by decide)
    (by decide) (by decide)).1, ?_⟩
  have h := (parse_hex_right_align_spec.1 [0x63, 0x64] 2 [7, 0] 2 (by decide) (by decide)
    (by decide) (by decide)).2.1
  exact h.trans (by decide)

theorem Width.size_pos (W : Width) : 0 < W.size := by
  cases W <;> simp [Width.size]

theorem parse_hex_buf_fst_length (str : List Nat) (len : Nat) (data : List Nat) (count : Nat)
    (hstr : len ≤ str.length) (hdata : data.length = count) :
    (parse_hex_buf str len data count).1.length = count := by
  simp only [parse_hex_buf]
  split
  · simp only [List.length_append, List.length_take, List.length_drop, bytesOfHex_length,
      List.length_replicate]
    omega
  · simpa using hdata

theorem parse_hex_buf_fst_lt (str : List Nat) (len : Nat) (data : List Nat) (count : Nat)
    (hdata : ∀ b ∈ data, b < 256) :
    ∀ b ∈ (parse_hex_buf str len data count).1, b < 256 := by
  simp only [parse_hex_buf]
  split
  · intro b hb
    rcases List.mem_append.mp hb with h | h
    · exact hdata b (List.mem_of_mem_take h)
    · exact bytesOfHex_lt _ b (List.mem_of_mem_drop h)
  · exact hdata

theorem parse_hex_consumed_zero_iff (str : List Nat) (len : Nat) (data : List Nat)
    (count : Nat) (hc : 0 < count) :
    (parse_hex_buf str len data count).2 = 0 ↔
      len = 0 ∨ ∃ c ∈ str.take (min len (2 * count)), hexVal c = none := by
  simp only [parse_hex_buf]
  split
  case isTrue hall =>
    dsimp only
    constructor
    · intro h0
      left
      omega
    · rintro (h | ⟨c, hcmem, hcnone⟩)
      · omega
      · exfalso
        rw [List.all_eq_true] at hall
        have h2 := hall c hcmem
        simp [hcnone] at h2
  case isFalse hall =>
    dsimp only
    constructor
    · intro _
      right
      rw [Bool.not_eq_true, List.all_eq_false] at hall
      obtain ⟨c, hcmem, hcfalse⟩ := hall
      exact ⟨c, hcmem, by simpa using hcfalse⟩
    · intro _
      rfl

theorem convert_bytes_to_value (little : Bool) (W : Width) (buf : List Nat)
    (hlen : buf.length = W.size) (hb : ∀ b ∈ buf, b < 256) :
    convert_big_endian little W (bytes_to_value little buf) = ofBytesBE buf := by
  cases little with
  | false => rfl
  | true =>
    simp only [convert_big_endian, bytes_to_value, if_true]
    rw [byteswap_ofBytesBE W buf.reverse (by simpa using hlen)
      (fun b hb2 => hb b (List.mem_reverse.mp hb2)), List.reverse_reverse]

/-- Counterexample to C1 as stated: the one-character input "3" for the
4-byte type uint32_t is incomplete (1 < 2 * sizeof(T) = 8 characters), yet
the typed parse does not return the absent value: it returns the value 3. -/
theorem parse_hex_typed_counterexample :
    1 < 2 * Width.w4.size ∧ parse_hex_typed true .w4 [0x33] 1 = some 3 ∧
      parse_hex_typed true .w4 [0x33] 1 ≠ none :=
  ⟨by decide, by decide, by decide⟩

/-- C1 amended: for either host byte order, the typed parse_hex returns the
absent value exactly when the input length exceeds 2*sizeof(T), the length is
0, or a non-hex character occurs among the examined characters; shorter valid
input succeeds (zero-extended), and every successful parse returns the
big-endian value of the parsed buffer, which is below 2 ^ (8 * sizeof(T)). -/
theorem parse_hex_typed_spec :
    ∀ (little : Bool) (W : Width) (str : List Nat) (len : Nat), len ≤ str.length →
    (parse_hex_typed little W str len = none ↔
      2 * W.size < len ∨ len = 0 ∨ ∃ c ∈ str.take len, hexVal c = none) ∧
    (∀ v, parse_hex_typed little W str len = some v →
      v = ofBytesBE (parse_hex_buf str len (List.replicate W.size 0) W.size).1 ∧
        v < 2 ^ (8 * W.size)) := by
  intro little W str len hstr
  have hwpos : 0 < W.size := Width.size_pos W
  constructor
  · simp only [parse_hex_typed]
    split
    case isTrue h => simp [h]
    case isFalse h =>
      have hmin : min len (2 * W.size) = len := by omega
      have hzero := parse_hex_consumed_zero_iff str len (List.replicate W.size 0) W.size hwpos
      rw [hmin] at hzero
      split
      case isTrue h2 =>
        constructor
        · intro _
          exact Or.inr (hzero.mp h2)
        · intro _
          rfl
      case isFalse h2 =>
        constructor
        · intro hcontra
          simp at hcontra
        · rintro (h3 | h3)
          · omega
          · exact absurd (hzero.mpr h3) h2
  · intro v hv
    simp only [parse_hex_typed] at hv
    split at hv
    case isTrue => simp at hv
    case isFalse h =>
      split at hv
      case isTrue => simp at hv
      case isFalse h2 =>
        have hv2 : convert_big_endian little W
            (bytes_to_value little (parse_hex_buf str len (List.replicate W.size 0) W.size).1) =
              v := by
          simpa using hv
        have hlen := parse_hex_buf_fst_length str len (List.replicate W.size 0) W.size hstr
          (by simp)
        have hbytes := parse_hex_buf_fst_lt str len (List.replicate W.size 0) W.size
          (by intro b hb; rw [List.eq_of_mem_replicate hb]; omega)
        rw [convert_bytes_to_value little W _ hlen hbytes] at hv2
        refine ⟨hv2.symm, ?_⟩
        rw [← hv2]
        have hlt := ofBytesBE_lt _ hbytes
        rwa [hlen] at hlt

/-- Witness for parse_hex_typed_spec: an invalid character makes the parse
absent, and the successful parse of "3" at width 4 returns the big-endian
value of its buffer. -/
theorem parse_hex_typed_spec_witness :
    parse_hex_typed true .w2 [0x31, 0x78] 2 = none ∧
      (3 : Nat) =
        ofBytesBE (parse_hex_buf [0x33] 1 (List.replicate Width.w4.size 0) Width.w4.size).1 :=
  ⟨(parse_hex_typed_spec true .w2 [0x31, 0x78] 2 (by decide)).1.mpr
      (Or.inr (Or.inr ⟨0x78, by decide, by decide⟩)),
    ((parse_hex_typed_spec true .w4 [0x33] 1 (by decide)).2 3 (by decide)).1⟩

end Esphome
